import Mathlib

/-!
Verification of the markdown task aggregator (`main.go`) against its
specification.  The Go program is shallowly embedded: each Go function is
translated into a Lean definition of the same name, `time.Time` values are
modelled by their calendar decomposition (`GoTime`), pointer types become
`Option`, and a run that would dereference a nil pointer (panic) is modelled
by an `Option` result being `none`.
-/

namespace MdAgg

/-- Character class of the RE2 `\s` escape: `[\t\n\f\r ]`. -/
def isRegexSpace (c : Char) : Bool :=
  c == ' ' || c == '\t' || c == '\n' || c == '\x0c' || c == '\r'

/-- Character class accepted by Go's `unicode.IsSpace` (the Unicode
White_Space property), used by `strings.TrimSpace`. -/
def isUnicodeSpace (c : Char) : Bool :=
  let n := c.toNat
  n == 9 || n == 10 || n == 11 || n == 12 || n == 13 || n == 32 ||
  n == 0x85 || n == 0xA0 || n == 0x1680 || (0x2000 <= n && n <= 0x200A) ||
  n == 0x2028 || n == 0x2029 || n == 0x202F || n == 0x205F || n == 0x3000

def isDigitChar (c : Char) : Bool := '0' ≤ c && c ≤ '9'

/-- Model of a Go `time.Time` by its calendar decomposition in UTC:
year/month/day, the second within the day, and nanoseconds.  Values produced
by `time.Parse("2006-01-02", s)` have `secOfDay = 0` and `nsec = 0`; a
filesystem birth timestamp is an arbitrary `GoTime`. -/
structure GoTime where
  year : Nat
  month : Nat
  day : Nat
  secOfDay : Nat
  nsec : Nat
deriving DecidableEq

/-- The zero `time.Time{}`: January 1, year 1, 00:00:00 UTC. -/
def GoTime.zeroTime : GoTime := ⟨1, 1, 1, 0, 0⟩

/-- Model of `time.Time.IsZero`. -/
def GoTime.isZero (t : GoTime) : Bool := t == GoTime.zeroTime

/-- Days from the civil epoch 1970-01-01 in the proleptic Gregorian
calendar (Howard Hinnant's `days_from_civil`, floor divisions). -/
def daysFromCivil (y m d : Nat) : Int :=
  let yi : Int := if m ≤ 2 then (y : Int) - 1 else (y : Int)
  let era : Int := Int.fdiv yi 400
  let yoe : Int := yi - era * 400
  let mp : Int := if 2 < m then (m : Int) - 3 else (m : Int) + 9
  let doy : Int := Int.fdiv (153 * mp + 2) 5 + (d : Int) - 1
  let doe : Int := yoe * 365 + Int.fdiv yoe 4 - Int.fdiv yoe 100 + doy
  era * 146097 + doe - 719468

/-- Model of `time.Time.Unix()`: seconds since the Unix epoch (nanoseconds
are truncated, exactly as in Go). -/
def GoTime.unix (t : GoTime) : Int :=
  daysFromCivil t.year t.month t.day * 86400 + (t.secOfDay : Int)

/-- Decimal rendering of a natural number left-padded with zeros to
width `w`, as Go's `Format` does for the layout fields. -/
def padZero (w : Nat) (n : Nat) : String :=
  let s := toString n
  ⟨List.replicate (w - s.length) '0' ++ s.data⟩

/-- Model of `t.Format(yearMonthDayLayout)` with layout `"2006-01-02"`. -/
def GoTime.fmtYMD (t : GoTime) : String :=
  padZero 4 t.year ++ "-" ++ padZero 2 t.month ++ "-" ++ padZero 2 t.day

def isLeapYear (y : Nat) : Bool :=
  (y % 4 == 0 && y % 100 != 0) || y % 400 == 0

def daysInMonth (y m : Nat) : Nat :=
  if m == 2 then (if isLeapYear y then 29 else 28)
  else if m == 4 || m == 6 || m == 9 || m == 11 then 30
  else 31

def digitVal (c : Char) : Nat := c.toNat - '0'.toNat

/-- Model of `time.Parse("2006-01-02", s)`: the string must be exactly
`dddd-dd-dd` and the month and day must be in range for the (proleptic
Gregorian) calendar; otherwise Go returns an error, modelled as `none`. -/
def goTimeParseYMD (s : String) : Option GoTime :=
  match s.data with
  | [y1, y2, y3, y4, h1, m1, m2, h2, d1, d2] =>
    if isDigitChar y1 && isDigitChar y2 && isDigitChar y3 && isDigitChar y4 &&
       h1 == '-' && isDigitChar m1 && isDigitChar m2 &&
       h2 == '-' && isDigitChar d1 && isDigitChar d2 then
      let y := ((digitVal y1 * 10 + digitVal y2) * 10 + digitVal y3) * 10 + digitVal y4
      let m := digitVal m1 * 10 + digitVal m2
      let d := digitVal d1 * 10 + digitVal d2
      if 1 ≤ m && m ≤ 12 && 1 ≤ d && d ≤ daysInMonth y m then
        some ⟨y, m, d, 0, 0⟩
      else none
    else none
  | _ => none

/-- Capture group of `^(\d{4}-\d{2}-\d{2})` applied to `cs`: the first ten
characters when they have the shape `dddd-dd-dd`. -/
def ymdShapeCapture (cs : List Char) : Option String :=
  match cs with
  | y1 :: y2 :: y3 :: y4 :: h1 :: m1 :: m2 :: h2 :: d1 :: d2 :: _ =>
    if isDigitChar y1 && isDigitChar y2 && isDigitChar y3 && isDigitChar y4 &&
       h1 == '-' && isDigitChar m1 && isDigitChar m2 &&
       h2 == '-' && isDigitChar d1 && isDigitChar d2 then
      some ⟨[y1, y2, y3, y4, h1, m1, m2, h2, d1, d2]⟩
    else none
  | _ => none

/-- Model of matching `datePattern = ^(\d{4}-\d{2}-\d{2})` against a string
and extracting the capture group. -/
def dateCapture (text : String) : Option String :=
  ymdShapeCapture text.data

/-- Model of matching `dateHeaderPattern = ^\#+\s+(\d{4}-\d{2}-\d{2})`
against a line and extracting the capture group.  `#+` and `\s+` are
deterministic here because `#`, `\s` and `\d` are pairwise disjoint. -/
def dateHeaderCapture (text : String) : Option String :=
  let cs := text.data
  let hashes := cs.takeWhile (· == '#')
  let rest1 := cs.dropWhile (· == '#')
  if hashes.isEmpty then none
  else
    let sp := rest1.takeWhile isRegexSpace
    let rest2 := rest1.dropWhile isRegexSpace
    if sp.isEmpty then none else ymdShapeCapture rest2

/-- Model of `parseDate(pattern, text, lastDate)`.  The compiled regular
expression with its capture group is passed as the `capture` function. -/
def parseDate (capture : String → Option String) (text : String)
    (lastDate : Option GoTime) : Option GoTime :=
  match capture text with
  | some s =>
    match goTimeParseYMD s with
    | some parsedDate => some parsedDate
    | none => lastDate
  | none => lastDate

/-- Bullet characters accepted by the character class `[-|+|\*]` of the two
task patterns.  Note that the class contains the literal `|` as well. -/
def isBulletChar (c : Char) : Bool := c == '-' || c == '|' || c == '+' || c == '*'

/-- The literal checkbox of the complete pattern: `\[x\]` under `(?i)`. -/
def checkboxComplete (cs : List Char) : Bool :=
  match cs with
  | a :: x :: b :: _ => a == '[' && b == ']' && (x == 'x' || x == 'X')
  | _ => false

/-- The checkbox of the incomplete pattern: `\[\s+\]`. -/
def checkboxIncomplete (cs : List Char) : Bool :=
  match cs with
  | a :: rest =>
    a == '[' && !(rest.takeWhile isRegexSpace).isEmpty &&
      (match rest.dropWhile isRegexSpace with
       | b :: _ => b == ']'
       | _ => false)
  | [] => false

/-- Consume the optional single bullet character of `[-|+|\*]?`. -/
def afterOptBullet (bullet : Char → Bool) (cs : List Char) : List Char :=
  match cs with
  | c :: rest => if bullet c then rest else cs
  | [] => []

/-- Greedy match of the common task-pattern `^\s*[-|+|\*]?\s*`, returning
what is left of the line.  The greedy left-to-right match is deterministic
because the whitespace, bullet and bracket character sets are pairwise
disjoint. -/
def taskCheckboxRest (line : String) : List Char :=
  (afterOptBullet isBulletChar (line.data.dropWhile isRegexSpace)).dropWhile
    isRegexSpace

/-- Model of matching `completeTaskPattern = (?i)^\s*[-|+|\*]?\s*\[x\]`. -/
def matchCompleteTask (line : String) : Bool :=
  checkboxComplete (taskCheckboxRest line)

/-- Model of matching `incompleteTaskPattern = ^\s*[-|+|\*]?\s*\[\s+\]`. -/
def matchIncompleteTask (line : String) : Bool :=
  checkboxIncomplete (taskCheckboxRest line)

/-- Model of matching `headerPattern = ^\s*\#+\s+`. -/
def matchHeaderPattern (line : String) : Bool :=
  let cs1 := line.data.dropWhile isRegexSpace
  let hashes := cs1.takeWhile (· == '#')
  let rest := cs1.dropWhile (· == '#')
  !hashes.isEmpty &&
    (match rest with
     | c :: _ => isRegexSpace c
     | [] => false)

/-- Model of `strings.TrimLeft(line, "# ")`: remove the maximal leading run
of characters drawn from the cutset consisting of the hash mark and the
space character. -/
def goTrimLeftHashSpace (line : String) : String :=
  ⟨line.data.dropWhile (fun c => c == '#' || c == ' ')⟩

/-- Model of `parseLastHeader`. -/
def parseLastHeader (line lastHeader : String) : String :=
  if matchHeaderPattern line then goTrimLeftHashSpace line else lastHeader

/-- Model of `strings.TrimSpace` (both ends, `unicode.IsSpace`). -/
def goTrimSpace (cs : List Char) : List Char :=
  ((cs.dropWhile isUnicodeSpace).reverse.dropWhile isUnicodeSpace).reverse

/-- Model of `strings.TrimSpace(line[strings.Index(line, "]")+1:])`: the text
after the first closing bracket, trimmed.  When the line contains no `]`,
`strings.Index` returns `-1` and the slice is the whole line.  (Go slices by
byte offset; for lines classified as tasks every character up to the first
`]` is ASCII, so the character-level model agrees.) -/
def textAfterBracket (line : String) : String :=
  match line.data.dropWhile (· != ']') with
  | [] => ⟨goTrimSpace line.data⟩
  | _ :: rest => ⟨goTrimSpace rest⟩

def defaultOutputFilename : String := "TASKS.md"

structure Task where
  Complete : Bool
  Date : GoTime
  FilePath : String
  PreviousHeader : String
  Text : String
deriving DecidableEq

/-- Model of `parseTask`: `none` plays the role of the `(nil, false)`
return. -/
def parseTask (date : GoTime) (lastHeader filePath line : String) : Option Task :=
  let completeTask := matchCompleteTask line
  let incompleteTask := matchIncompleteTask line
  if completeTask || incompleteTask then
    some { Complete := completeTask
           Date := date
           FilePath := filePath
           PreviousHeader := lastHeader
           Text := textAfterBracket line }
  else none

/-- Model of a discovered file as built by `markdownFilePaths`.  The
`content` field carries the lines the buffered scanner would deliver
(`none` models a file that `os.Open` fails on). -/
structure GoFile where
  Date : Option GoTime
  Name : String
  Path : String
  content : Option (List String)
deriving DecidableEq

/-- The scanning loop of `findTasks`.  Go evaluates `*date` on every line
when calling `parseTask`; when the date pointer is nil this is a nil
dereference, i.e. a panic, modelled by the result `none`. -/
def scanLines (filePath : String) : Option GoTime → String → List String →
    Option (List Task)
  | _, _, [] => some []
  | date, lastHeader, line :: rest =>
    let date' := parseDate dateHeaderCapture line date
    let lastHeader' := parseLastHeader line lastHeader
    match date' with
    | none => none
    | some d =>
      match parseTask d lastHeader' filePath line with
      | some task => (scanLines filePath date' lastHeader' rest).map (task :: ·)
      | none => scanLines filePath date' lastHeader' rest

/-- Model of `findTasks`.  The guard compares against the constant
`defaultOutputFilename`, not the configured output name.  A file that
cannot be opened contributes no tasks. -/
def findTasks (file : GoFile) : Option (List Task) :=
  if file.Name = defaultOutputFilename then some []
  else
    match file.content with
    | none => some []
    | some lines => scanLines file.Path file.Date "" lines

/-- The scanning part of `findTasks`, after the reserved-name guard: open
the file (an unreadable file contributes no tasks) and scan its lines. -/
def scanFileContent (file : GoFile) : Option (List Task) :=
  match file.content with
  | none => some []
  | some lines => scanLines file.Path file.Date "" lines

/-- What `ioutil.ReadDir` reports about one regular file: its name, the
platform birth timestamp when obtainable from `Sys()` (the `TODO: this only
works on MAC` fallback), and the lines the file holds (`none` when the file
cannot be opened). -/
structure FileInfo where
  name : String
  birthtime : Option GoTime
  content : Option (List String)
deriving DecidableEq

/-- A directory tree.  `ioutil.ReadDir` lists entries in a deterministic
(lexical) order; the model simply takes the entry list as given. -/
inductive DirEntry where
  | file (info : FileInfo)
  | dir (name : String) (entries : List DirEntry)

/-- Model of `parseDateFromFile`: a date parsed from the start of the file
name wins; otherwise the platform birth timestamp when present; otherwise
no date. -/
def parseDateFromFile (info : FileInfo) : Option GoTime :=
  match parseDate dateCapture info.name none with
  | some result => some result
  | none => info.birthtime

/-- Model of matching `markdownFilenamePattern = (?i).md$` (unanchored
search).  The dot is an unescaped regex dot: it matches any character other
than a newline, so the test is: at least three characters, the last two
being `md` case-insensitively. -/
def matchMarkdownFilename (name : String) : Bool :=
  match name.data.reverse with
  | d :: m :: c :: _ =>
    (d == 'd' || d == 'D') && (m == 'm' || m == 'M') && c != '\n'
  | _ => false

/-- Model of `path.Join(dirPath, name)` for the well-formed names returned
by `ReadDir` (nonempty, no slash, not a dot): joining to the root `"."`
cleans away the leading `./`. -/
def joinPath (dirPath name : String) : String :=
  if dirPath = "." then name else dirPath ++ "/" ++ name

/-- Model of `markdownFilePaths`: recursive directory walk keeping exactly
the names matched by `markdownFilenamePattern`, each with its inferred
date.  Directories are always recursed into, whatever their name. -/
def markdownFilePaths (dirPath : String) : List DirEntry → List GoFile
  | [] => []
  | .file info :: rest =>
    let date := parseDateFromFile info
    (if matchMarkdownFilename info.name then
      [{ Date := date, Name := info.name, Path := joinPath dirPath info.name,
         content := info.content }]
     else []) ++ markdownFilePaths dirPath rest
  | .dir name entries :: rest =>
    markdownFilePaths (joinPath dirPath name) entries ++
      markdownFilePaths dirPath rest

/-- Flattening of the same walk with no name filter: every regular file in
traversal order, with the same dates and paths attached. -/
def walkAllFiles (dirPath : String) : List DirEntry → List GoFile
  | [] => []
  | .file info :: rest =>
    { Date := parseDateFromFile info, Name := info.name,
      Path := joinPath dirPath info.name, content := info.content } ::
      walkAllFiles dirPath rest
  | .dir name entries :: rest =>
    walkAllFiles (joinPath dirPath name) entries ++ walkAllFiles dirPath rest

/-- ASCII restriction of Go's `unicode.IsLetter c || unicode.IsDigit c`
(the Unicode tables are abridged; no claim depends on the classification
of non-ASCII characters). -/
def isLetterOrDigit (c : Char) : Bool := c.isAlpha || c.isDigit

/-- Model of `strings.FieldsFunc`: split around characters satisfying `f`,
dropping empty fields.  `cur` accumulates the current field reversed. -/
def fieldsFuncAux (f : Char → Bool) (cur : List Char) :
    List Char → List (List Char)
  | [] => if cur.isEmpty then [] else [cur.reverse]
  | c :: rest =>
    if f c then
      if cur.isEmpty then fieldsFuncAux f [] rest
      else cur.reverse :: fieldsFuncAux f [] rest
    else fieldsFuncAux f (c :: cur) rest

def goFieldsFunc (f : Char → Bool) (s : String) : List String :=
  (fieldsFuncAux f [] s.data).map (fun l => ⟨l⟩)

/-- Model of `strings.Join(fields, "-")`. -/
def joinHyphen : List String → String
  | [] => ""
  | [x] => x
  | x :: y :: xs => x ++ "-" ++ joinHyphen (y :: xs)

/-- Model of `taskPath`: the link target, optionally suffixed with a slug
anchor derived from the last header. -/
def taskPath (filePath lastHeader : String) : String :=
  if lastHeader = "" then filePath
  else filePath ++ "#" ++
    joinHyphen (goFieldsFunc (fun c => !isLetterOrDigit c) lastHeader)

/-- One rendered task line of `Tasks.String`:
`- [x] [text](target)` or `- [ ] [text](target)`. -/
def taskLine (task : Task) : String :=
  "- [" ++ (if task.Complete then "x" else " ") ++ "] [" ++ task.Text ++
    "](" ++ taskPath task.FilePath task.PreviousHeader ++ ")\n"

/-- The loop of `Tasks.String`, with the mutable `lastDate` made an
explicit argument (initially the zero time). -/
def tasksStringAux (lastDate : GoTime) : List Task → String
  | [] => ""
  | task :: rest =>
    if task.Date.fmtYMD ≠ lastDate.fmtYMD then
      (if !lastDate.isZero then "\n" else "") ++
        ("# " ++ task.Date.fmtYMD ++ "\n\n") ++
        taskLine task ++ tasksStringAux task.Date rest
    else taskLine task ++ tasksStringAux lastDate rest

/-- Model of `Tasks.String`. -/
def tasksString (tasks : List Task) : String :=
  tasksStringAux GoTime.zeroTime tasks

/-- The comparison underlying `sort.SliceStable`: the Go code sorts with the
strict comparison `tasks[i].Date.Unix() < tasks[j].Date.Unix()`; a stable
sort for that comparison orders by the reflexive closure `≤` with ties kept
in pre-sort order. -/
def dateLE (a b : Task) : Bool := a.Date.unix ≤ b.Date.unix

/-- Insert a task in front of the first existing task it compares `≤` to.
Used to realise the stable sort of `sort.SliceStable`: the inserted task is
the earliest in pre-sort order among those that follow it. -/
def insertByDate (t : Task) : List Task → List Task
  | [] => [t]
  | u :: rest => if dateLE t u then t :: u :: rest else u :: insertByDate t rest

/-- Model of `sort.SliceStable(tasks, less)`: a stable sort, ascending in
`Date.Unix()`, realised as a stable insertion sort. -/
def sortTasks : List Task → List Task
  | [] => []
  | t :: rest => insertByDate t (sortTasks rest)

/-- Model of `flag.String("o", defaultOutputFilename, ...)`: the output
filename is the `-o` value when given, the default otherwise. -/
def configuredOutput (oFlag : Option String) : String :=
  oFlag.getD defaultOutputFilename

/-- The aggregation loop of `main`: tasks of every discovered file,
concatenated in discovery order.  A panic in any scan aborts the run. -/
def collectTasks : List GoFile → Option (List Task)
  | [] => some []
  | f :: fs =>
    match findTasks f with
    | none => none
    | some ts => (collectTasks fs).map (ts ++ ·)

/-- Model of `main`: discover, scan, stable-sort, render.  The result is
the pair of the output filename written to and the rendered document, or
`none` when the run panics. -/
def runMain (oFlag : Option String) (entries : List DirEntry) :
    Option (String × String) :=
  match collectTasks (markdownFilePaths "." entries) with
  | none => none
  | some tasks => some (configuredOutput oFlag, tasksString (sortTasks tasks))

/-! Specification-side definitions.  The following definitions follow the
words of the spec and of the claims, for comparison against the code-side
definitions above. -/

/-- The formatted calendar date of a task, the renderer's grouping key. -/
def fmtOfTask (t : Task) : String := t.Date.fmtYMD

/-- The formatted date of the zero time. -/
def zeroFmt : String := "0001-01-01"

/-- Plain concatenation of a list of strings. -/
def catJoin : List String → String
  | [] => ""
  | x :: xs => x ++ catJoin xs

/-- Concatenation with one newline between consecutive pieces (the blank
separator line between rendered date blocks). -/
def sepJoin : List String → String
  | [] => ""
  | [x] => x
  | x :: y :: xs => x ++ "\n" ++ sepJoin (y :: xs)

/-- Grouping of a task list into maximal contiguous runs sharing the same
formatted date; `cur` is the run being accumulated and `curFmt` its date. -/
def chunksByFmtAux (cur : List Task) (curFmt : String) :
    List Task → List (List Task)
  | [] => [cur]
  | t :: rest =>
    if fmtOfTask t = curFmt then chunksByFmtAux (cur ++ [t]) curFmt rest
    else cur :: chunksByFmtAux [t] (fmtOfTask t) rest

/-- Maximal contiguous runs of equal formatted date, per the spec's
"tasks are grouped into contiguous runs sharing the same calendar date". -/
def chunksByFmt : List Task → List (List Task)
  | [] => []
  | t :: rest => chunksByFmtAux [t] (fmtOfTask t) rest

/-- One rendered block, per the spec: a header line with the run's date,
a blank line, then the task lines of the run. -/
def renderRun : List Task → String
  | [] => ""
  | t :: rest =>
    "# " ++ fmtOfTask t ++ "\n\n" ++ catJoin ((t :: rest).map taskLine)

/-- Rendering relative to a current date context: a task whose formatted
date equals `curFmt` emits only its line; otherwise a blank line, a header
and the line.  Proof intermediary between `tasksStringAux` and the chunked
form. -/
def renderFrom (curFmt : String) : List Task → String
  | [] => ""
  | t :: rest =>
    if fmtOfTask t = curFmt then taskLine t ++ renderFrom curFmt rest
    else "\n" ++ ("# " ++ fmtOfTask t ++ "\n\n") ++ taskLine t ++
      renderFrom (fmtOfTask t) rest

/-- Claim C2's bullet set: an optional single bullet from `{-, +, *}` -
without the `|` that the code's character class also accepts. -/
def claimBulletChar (c : Char) : Bool := c == '-' || c == '+' || c == '*'

/-- The remainder of the line after claim C2's prefix shape, which allows
only the claimed bullets. -/
def claimCheckboxRest (line : String) : List Char :=
  (afterOptBullet claimBulletChar (line.data.dropWhile isRegexSpace)).dropWhile
    isRegexSpace

/-- Claim C2's completed-task shape: leading whitespace, an optional single
bullet from `{-, +, *}`, optional whitespace, then `[x]` case-insensitively. -/
def claimCompleteShape (line : String) : Bool :=
  checkboxComplete (claimCheckboxRest line)

/-- Claim C2's incomplete-task shape: as `claimCompleteShape` but with the
brackets containing only (one or more) whitespace characters. -/
def claimIncompleteShape (line : String) : Bool :=
  checkboxIncomplete (claimCheckboxRest line)

/-- Claim C9's header shape: one or more leading `#` characters followed by
whitespace - with no whitespace allowed before the first `#`. -/
def claimHeaderShape (line : String) : Bool :=
  let hashes := line.data.takeWhile (· == '#')
  !hashes.isEmpty &&
    (match line.data.dropWhile (· == '#') with
     | c :: _ => isRegexSpace c
     | [] => false)

/-- Claim C6's file filter: the filename's extension case-insensitively
matches markdown, i.e. the name ends in `.md`. -/
def claimMarkdownExt (name : String) : Bool :=
  match name.data.reverse with
  | d :: m :: dot :: _ =>
    (d == 'd' || d == 'D') && (m == 'm' || m == 'M') && dot == '.'
  | _ => false

/-- Every character of the list is RE2 whitespace. -/
def AllRegexSpace (l : List Char) : Prop := ∀ c ∈ l, isRegexSpace c = true

/-- An optional single bullet character, as a list of length at most one. -/
def BulletOpt (b : List Char) : Prop :=
  b = [] ∨ ∃ c, b = [c] ∧ isBulletChar c = true

/-- Structural reading of the completed-task pattern, quantifying over an
explicit decomposition of the line: leading whitespace, an optional single
bullet from `{-, |, +, *}`, optional whitespace, then `[x]` or `[X]`. -/
def CompleteShape (line : String) : Prop :=
  ∃ w b v x rest, line.data = w ++ b ++ v ++ '[' :: x :: ']' :: rest ∧
    AllRegexSpace w ∧ BulletOpt b ∧ AllRegexSpace v ∧ (x = 'x' ∨ x = 'X')

/-- Structural reading of the incomplete-task pattern: as `CompleteShape`
but the brackets hold one or more whitespace characters. -/
def IncompleteShape (line : String) : Prop :=
  ∃ w b v sp rest, line.data = w ++ b ++ v ++ '[' :: (sp ++ ']' :: rest) ∧
    AllRegexSpace w ∧ BulletOpt b ∧ AllRegexSpace v ∧ sp ≠ [] ∧ AllRegexSpace sp

/-- Structural reading of the header pattern actually compiled by the code
(`^\s*\#+\s+`): optional leading whitespace, one or more `#`, then at least
one whitespace character. -/
def HeaderShape (line : String) : Prop :=
  ∃ w h c r, line.data = w ++ h ++ c :: r ∧ AllRegexSpace w ∧ h ≠ [] ∧
    (∀ x ∈ h, x = '#') ∧ isRegexSpace c = true

/-- Structural reading of the filename pattern actually compiled by the code
(`(?i).md$` with an unescaped dot): some character other than a newline,
then `m`/`M`, then `d`/`D`, at the very end of the name. -/
def MdSuffixShape (name : String) : Prop :=
  ∃ s c a b, name.data = s ++ [c, a, b] ∧ c ≠ '\n' ∧
    (a = 'm' ∨ a = 'M') ∧ (b = 'd' ∨ b = 'D')

/-! Claim theorems. -/

/-- C1: the claim says a task line occurring while no date context exists
still produces a Task with a zero/empty date and the scan and rendering
complete without crashing.  On the code, scanning any line of a file whose
inferred date is absent evaluates `*date` with a nil pointer and panics
(modelled by `none`): no Task is ever produced for such a file. -/
theorem c1_dateless_task_line_panics :
    findTasks ⟨none, "a.md", "a.md", some ["- [ ] buy milk"]⟩ = none := by
  decide

/-- C7: date inference precedence holds (a filename date wins over any
birth timestamp, and a file with neither yields no date without an error
in the inferrer itself), but the absence of a creation timestamp does fail
the run: `findTasks` then panics on the nil date pointer. -/
theorem c7_inference_precedence_but_absence_fails_run :
    parseDateFromFile ⟨"2023-01-02-notes.md", some ⟨2024, 6, 7, 123, 456⟩, some []⟩ =
      some ⟨2023, 1, 2, 0, 0⟩ ∧
    parseDateFromFile ⟨"notes.md", none, some []⟩ = none ∧
    findTasks ⟨none, "notes.md", "notes.md", some ["- [ ] a"]⟩ = none := by
  refine ⟨by decide, by decide, by decide⟩

/-- C2 counterexample: the line `| [x] a` has none of the claim's two
shapes (its bullet `|` is not in `{-, +, *}`), so by the claim no Task
should be produced; the code's character class `[-|+|\*]` also matches
`|`, and a completed Task is produced. -/
theorem c2_counterexample_pipe_bullet :
    claimCompleteShape "| [x] a" = false ∧
    claimIncompleteShape "| [x] a" = false ∧
    parseTask ⟨2023, 1, 2, 0, 0⟩ "" "f.md" "| [x] a" =
      some ⟨true, ⟨2023, 1, 2, 0, 0⟩, "f.md", "", "a"⟩ := by
  decide

/-- C3 counterexample: two tasks on the same calendar day (equal
year-month-day formatting) whose dates differ in their second-of-day are
reordered by the sort, which compares `Date.Unix()` seconds, not dates at
day resolution: the earlier-discovered task A ends up after B. -/
theorem c3_counterexample_same_day_not_stable :
    fmtOfTask ⟨false, ⟨2023, 1, 2, 3600, 0⟩, "a.md", "", "A"⟩ =
      fmtOfTask ⟨false, ⟨2023, 1, 2, 0, 0⟩, "b.md", "", "B"⟩ ∧
    sortTasks [⟨false, ⟨2023, 1, 2, 3600, 0⟩, "a.md", "", "A"⟩,
               ⟨false, ⟨2023, 1, 2, 0, 0⟩, "b.md", "", "B"⟩] =
      [⟨false, ⟨2023, 1, 2, 0, 0⟩, "b.md", "", "B"⟩,
       ⟨false, ⟨2023, 1, 2, 3600, 0⟩, "a.md", "", "A"⟩] := by
  decide

/-- C4 counterexample: a sorted sequence consisting of one task carrying
the zero date renders with no date header at all, so not every run is
preceded by a `# YYYY-MM-DD` header line. -/
theorem c4_counterexample_zero_date_run_has_no_header :
    tasksString [⟨false, GoTime.zeroTime, "f.md", "", "hello"⟩] =
      "- [ ] [hello](f.md)\n" := by
  decide

/-- C5 counterexample: with the `-o OUT.md` override the configured output
filename is `OUT.md`, yet a markdown file bearing that name is scanned and
contributes tasks; the exclusion compares against the constant `TASKS.md`
only. -/
theorem c5_counterexample_override_not_excluded :
    configuredOutput (some "OUT.md") = "OUT.md" ∧
    findTasks ⟨none, "OUT.md", "OUT.md", some ["# 2023-01-02", "- [x] a"]⟩ =
      some [⟨true, ⟨2023, 1, 2, 0, 0⟩, "OUT.md", "2023-01-02", "a"⟩] := by
  refine ⟨by decide, by decide⟩

/-- C6 counterexample: the filename `numd` does not end in `.md`, yet
discovery returns it: the unescaped dot of `(?i).md$` matches the `u`. -/
theorem c6_counterexample_numd_discovered :
    claimMarkdownExt "numd" = false ∧
    markdownFilePaths "." [.file ⟨"numd", none, some []⟩] =
      [⟨none, "numd", "numd", some []⟩] := by
  refine ⟨by decide, ?_⟩
  simp only [markdownFilePaths]
  decide

/-- C9 counterexample: the line `  # Foo` does not have the claim's header
shape (it does not begin with `#`), yet the code updates the section header,
because `headerPattern` starts with `\s*`; and for `#` followed by a tab the
code strips only the `#` (the `TrimLeft` cutset is `"# "`), not the
whitespace the claim says is stripped. -/
theorem c9_counterexample_leading_space_and_tab :
    claimHeaderShape "  # Foo" = false ∧
    parseLastHeader "  # Foo" "prev" = "Foo" ∧
    claimHeaderShape "#\tFoo" = true ∧
    parseLastHeader "#\tFoo" "prev" = "\tFoo" := by
  decide

/-! Helper lemmas. -/

theorem dropWhile_head_false {p : α → Bool} {l l' : List α} {c : α}
    (h : l.dropWhile p = c :: l') : p c = false := by
  induction l with
  | nil => simp at h
  | cons a as ih =>
    rw [List.dropWhile_cons] at h
    by_cases hpa : p a = true
    · simp [hpa] at h; exact ih h
    · simp only [Bool.not_eq_true] at hpa
      simp only [hpa, Bool.false_eq_true, if_false] at h
      cases h
      exact hpa

theorem isRegexSpace_of_bullet {c : Char} (h : isBulletChar c = true) :
    isRegexSpace c = false := by
  simp only [isBulletChar, Bool.or_eq_true, beq_iff_eq] at h
  rcases h with ((h | h) | h) | h <;> subst h <;> decide

/-- A line captured by the date-header pattern starts with a hash mark. -/
theorem dateHeaderCapture_starts_hash {line : String} {s : String}
    (h : dateHeaderCapture line = some s) :
    ∃ rest, line.data = '#' :: rest := by
  simp only [dateHeaderCapture] at h
  cases hl : line.data with
  | nil => rw [hl] at h; simp at h
  | cons c rest =>
    rw [hl] at h
    by_cases hc : (c == '#') = true
    · simp only [beq_iff_eq] at hc
      exact ⟨rest, by rw [hc]⟩
    · simp only [Bool.not_eq_true] at hc
      simp [List.takeWhile_cons, hc] at h

/-- A line starting with a hash mark matches neither task pattern. -/
theorem task_matchers_false_of_hash {line : String} {rest : List Char}
    (h : line.data = '#' :: rest) :
    matchCompleteTask line = false ∧ matchIncompleteTask line = false := by
  have hsp : isRegexSpace '#' = false := by decide
  have hbu : isBulletChar '#' = false := by decide
  have hbra : ('#' == '[') = false := by decide
  have hrest : taskCheckboxRest line = '#' :: rest := by
    simp only [taskCheckboxRest, h, List.dropWhile_cons, hsp, Bool.false_eq_true,
      if_false, afterOptBullet, hbu]
  constructor
  · simp only [matchCompleteTask, hrest]
    cases rest with
    | nil => rfl
    | cons x r2 =>
      cases r2 with
      | nil => rfl
      | cons b r3 => simp [checkboxComplete, hbra]
  · simp only [matchIncompleteTask, hrest]
    simp [checkboxIncomplete, hbra]

/-- C8: a line matching the date-header shape whose date portion fails to
parse leaves the date context unchanged, and (when a date context exists,
so that the scan does not trip over the nil-date panic of C1) scanning
simply continues with the subsequent lines; the line still updates the
section header as any header line does. -/
theorem c8_malformed_date_header_keeps_context
    (line s : String) (lastDate : Option GoTime) (d : GoTime)
    (hdr path : String) (rest : List String)
    (hcap : dateHeaderCapture line = some s)
    (hbad : goTimeParseYMD s = none) :
    parseDate dateHeaderCapture line lastDate = lastDate ∧
    scanLines path (some d) hdr (line :: rest) =
      scanLines path (some d) (parseLastHeader line hdr) rest := by
  have hkeep : ∀ prev : Option GoTime,
      parseDate dateHeaderCapture line prev = prev := by
    intro prev
    simp only [parseDate, hcap, hbad]
  refine ⟨hkeep lastDate, ?_⟩
  obtain ⟨cs, hcs⟩ := dateHeaderCapture_starts_hash hcap
  obtain ⟨hc, hi⟩ := task_matchers_false_of_hash hcs
  have hnotask : parseTask d (parseLastHeader line hdr) path line = none := by
    simp only [parseTask, hc, hi, Bool.or_self, Bool.false_eq_true, if_false]
  simp only [scanLines, hkeep (some d), hnotask]

/-- Witness for C8 at the concrete line `# 2023-13-01` (month 13 fails to
parse): the previous date context `2022-05-01` is retained. -/
theorem c8_witness :
    parseDate dateHeaderCapture "# 2023-13-01" (some ⟨2022, 5, 1, 0, 0⟩) =
      some ⟨2022, 5, 1, 0, 0⟩ ∧
    scanLines "f.md" (some ⟨2022, 5, 1, 0, 0⟩) "" ["# 2023-13-01"] =
      scanLines "f.md" (some ⟨2022, 5, 1, 0, 0⟩)
        (parseLastHeader "# 2023-13-01" "") [] :=
  c8_malformed_date_header_keeps_context "# 2023-13-01" "2023-13-01"
    (some ⟨2022, 5, 1, 0, 0⟩) ⟨2022, 5, 1, 0, 0⟩ "" "f.md" []
    (by decide) (by decide)

theorem fmtYMD_zeroTime : GoTime.zeroTime.fmtYMD = zeroFmt := by decide

/-- Rendering step: a task whose formatted date equals the current date
context emits only its line. -/
theorem tasksStringAux_cons_same {t : Task} {d : GoTime}
    (h : t.Date.fmtYMD = d.fmtYMD) (l : List Task) :
    tasksStringAux d (t :: l) = taskLine t ++ tasksStringAux d l := by
  simp [tasksStringAux, h]

/-- Rendering step: a task whose formatted date differs from the current
date context emits a separator (unless the context is still the zero
time), a header, and its line. -/
theorem tasksStringAux_cons_diff {t : Task} {d : GoTime}
    (h : t.Date.fmtYMD ≠ d.fmtYMD) (l : List Task) :
    tasksStringAux d (t :: l) =
      (if !d.isZero then "\n" else "") ++ ("# " ++ t.Date.fmtYMD ++ "\n\n") ++
        taskLine t ++ tasksStringAux t.Date l := by
  simp only [tasksStringAux]
  rw [if_pos h]

theorem isZero_zeroTime : GoTime.zeroTime.isZero = true := by decide

theorem fmtYMD_eq_zeroFmt_of_isZero {t : GoTime} (h : t.isZero = true) :
    t.fmtYMD = zeroFmt := by
  simp only [GoTime.isZero, beq_iff_eq] at h
  rw [h]; decide

theorem isZero_false_of_fmt {t : GoTime} (h : t.fmtYMD ≠ zeroFmt) :
    t.isZero = false := by
  by_contra hne
  simp only [Bool.not_eq_false] at hne
  exact h (fmtYMD_eq_zeroFmt_of_isZero hne)

/-- C10: the renderer's previous-date state starts at the zero time, so a
leading run of tasks carrying the zero date is emitted as bare task lines
with no date header of any kind, and the rest of the sequence renders
exactly as if it were the whole input - in particular the first emitted
header is that of the first task whose formatted date is non-zero. -/
theorem c10_zero_date_leading_run_headerless
    (zs rest : List Task) (hz : ∀ t ∈ zs, t.Date = GoTime.zeroTime) :
    tasksString (zs ++ rest) = catJoin (zs.map taskLine) ++ tasksString rest ∧
    (∀ (u : Task) (rest2 : List Task), fmtOfTask u ≠ zeroFmt →
      tasksString (u :: rest2) =
        "# " ++ fmtOfTask u ++ "\n\n" ++ taskLine u ++ tasksStringAux u.Date rest2) := by
  constructor
  · induction zs with
    | nil => simp [catJoin]
    | cons t zs' ih =>
      have ht : t.Date = GoTime.zeroTime := hz t (by simp)
      have hfmt : t.Date.fmtYMD = GoTime.zeroTime.fmtYMD := by rw [ht]
      have ih' := ih (fun u hu => hz u (by simp [hu]))
      unfold tasksString at ih' ⊢
      rw [List.cons_append, tasksStringAux_cons_same hfmt, ih']
      simp [catJoin, String.append_assoc]
  · intro u rest2 hu
    have hfmt : u.Date.fmtYMD ≠ GoTime.zeroTime.fmtYMD := by
      rw [fmtYMD_zeroTime]; exact hu
    unfold tasksString
    rw [tasksStringAux_cons_diff hfmt]
    simp only [isZero_zeroTime, Bool.not_true, Bool.false_eq_true, if_false,
      fmtOfTask]
    simp [String.append_assoc]

/-- Witness for C10: one zero-date task followed by one task dated
2023-01-02. -/
theorem c10_witness :
    tasksString ([⟨false, GoTime.zeroTime, "f.md", "", "hello"⟩] ++
        [⟨true, ⟨2023, 1, 2, 0, 0⟩, "g.md", "", "done"⟩]) =
      catJoin ([⟨false, GoTime.zeroTime, "f.md", "", "hello"⟩].map taskLine) ++
        tasksString [⟨true, ⟨2023, 1, 2, 0, 0⟩, "g.md", "", "done"⟩] ∧
    (∀ (u : Task) (rest2 : List Task), fmtOfTask u ≠ zeroFmt →
      tasksString (u :: rest2) =
        "# " ++ fmtOfTask u ++ "\n\n" ++ taskLine u ++ tasksStringAux u.Date rest2) :=
  c10_zero_date_leading_run_headerless
    [⟨false, GoTime.zeroTime, "f.md", "", "hello"⟩]
    [⟨true, ⟨2023, 1, 2, 0, 0⟩, "g.md", "", "done"⟩]
    (by decide)

theorem allSpace_takeWhile (l : List Char) :
    AllRegexSpace (l.takeWhile isRegexSpace) :=
  fun _ hc => List.mem_takeWhile_imp hc

theorem dropWhile_cons_of_neg {p : α → Bool} {c : α} {l : List α}
    (h : p c = false) : (c :: l).dropWhile p = c :: l := by
  rw [List.dropWhile_cons, h]
  simp

theorem takeWhile_cons_of_neg {p : α → Bool} {c : α} {l : List α}
    (h : p c = false) : (c :: l).takeWhile p = [] := by
  rw [List.takeWhile_cons, h]
  simp

/-- Every line decomposes as whitespace, an optional bullet, whitespace,
and the remainder computed by the greedy prefix match. -/
theorem taskCheckboxRest_decomp (line : String) :
    ∃ w b v, line.data = w ++ b ++ v ++ taskCheckboxRest line ∧
      AllRegexSpace w ∧ BulletOpt b ∧ AllRegexSpace v := by
  have hsplit := List.takeWhile_append_dropWhile isRegexSpace line.data
  cases hcs1 : line.data.dropWhile isRegexSpace with
  | nil =>
    have h0 : taskCheckboxRest line = [] := by
      simp [taskCheckboxRest, hcs1, afterOptBullet]
    refine ⟨line.data.takeWhile isRegexSpace, [], [], ?_, allSpace_takeWhile _,
      Or.inl rfl, fun x hx => by simp at hx⟩
    rw [h0]
    rw [hcs1, List.append_nil] at hsplit
    simp [hsplit]
  | cons c rest =>
    have hcf : isRegexSpace c = false := dropWhile_head_false hcs1
    rw [hcs1] at hsplit
    by_cases hb : isBulletChar c = true
    · have h1 : taskCheckboxRest line = rest.dropWhile isRegexSpace := by
        simp [taskCheckboxRest, hcs1, afterOptBullet, hb]
      have hrest := List.takeWhile_append_dropWhile isRegexSpace rest
      refine ⟨line.data.takeWhile isRegexSpace, [c], rest.takeWhile isRegexSpace,
        ?_, allSpace_takeWhile _, Or.inr ⟨c, rfl, hb⟩, allSpace_takeWhile _⟩
      rw [h1, List.append_assoc, List.append_assoc, hrest,
        List.singleton_append]
      exact hsplit.symm
    · have hbf : isBulletChar c = false := by
        simpa using hb
      have h1 : taskCheckboxRest line = c :: rest := by
        simp only [taskCheckboxRest, hcs1, afterOptBullet, hbf, Bool.false_eq_true,
          if_false]
        exact dropWhile_cons_of_neg hcf
      refine ⟨line.data.takeWhile isRegexSpace, [], [], ?_, allSpace_takeWhile _,
        Or.inl rfl, fun x hx => by simp at hx⟩
      rw [h1]
      simp only [List.append_nil]
      exact hsplit.symm

/-- Conversely, any whitespace-bullet-whitespace decomposition whose
remainder starts with an opening bracket is found by the greedy match. -/
theorem taskCheckboxRest_of_decomp (line : String) (w b v rr : List Char)
    (hdata : line.data = w ++ b ++ v ++ '[' :: rr)
    (hw : AllRegexSpace w) (hb : BulletOpt b) (hv : AllRegexSpace v) :
    taskCheckboxRest line = '[' :: rr := by
  have hbra1 : isRegexSpace '[' = false := by decide
  have hbra2 : isBulletChar '[' = false := by decide
  rcases hb with rfl | ⟨c, rfl, hc⟩
  · have hwv : ∀ a ∈ w ++ v, isRegexSpace a := by
      intro a ha
      rcases List.mem_append.1 ha with h | h
      · exact hw a h
      · exact hv a h
    have hd2 : line.data = (w ++ v) ++ ('[' :: rr) := by
      rw [hdata]
      simp
    have h1 : line.data.dropWhile isRegexSpace = '[' :: rr := by
      rw [hd2, List.dropWhile_append_of_pos hwv]
      exact dropWhile_cons_of_neg hbra1
    simp only [taskCheckboxRest, h1, afterOptBullet, hbra2, Bool.false_eq_true,
      if_false]
    exact dropWhile_cons_of_neg hbra1
  · have hcs : isRegexSpace c = false := isRegexSpace_of_bullet hc
    have hd2 : line.data = w ++ (c :: (v ++ '[' :: rr)) := by
      rw [hdata]
      simp
    have h1 : line.data.dropWhile isRegexSpace = c :: (v ++ '[' :: rr) := by
      rw [hd2, List.dropWhile_append_of_pos hw]
      exact dropWhile_cons_of_neg hcs
    simp only [taskCheckboxRest, h1, afterOptBullet, hc, if_true]
    rw [List.dropWhile_append_of_pos hv]
    exact dropWhile_cons_of_neg hbra1

/-- The complete-task matcher holds exactly on the structural reading of
its pattern. -/
theorem matchCompleteTask_iff (line : String) :
    matchCompleteTask line = true ↔ CompleteShape line := by
  constructor
  · intro h
    obtain ⟨w, b, v, hdata, hw, hb, hv⟩ := taskCheckboxRest_decomp line
    unfold matchCompleteTask at h
    cases hr : taskCheckboxRest line with
    | nil => rw [hr] at h; simp [checkboxComplete] at h
    | cons a r1 =>
      cases r1 with
      | nil => rw [hr] at h; simp [checkboxComplete] at h
      | cons x r2 =>
        cases r2 with
        | nil => rw [hr] at h; simp [checkboxComplete] at h
        | cons bb r3 =>
          rw [hr] at h
          simp only [checkboxComplete, Bool.and_eq_true, Bool.or_eq_true,
            beq_iff_eq] at h
          obtain ⟨⟨ha, hbb⟩, hx⟩ := h
          subst ha; subst hbb
          rw [hr] at hdata
          exact ⟨w, b, v, x, r3, hdata, hw, hb, hv, hx⟩
  · rintro ⟨w, b, v, x, rest, hdata, hw, hb, hv, hx⟩
    unfold matchCompleteTask
    rw [taskCheckboxRest_of_decomp line w b v (x :: ']' :: rest) hdata hw hb hv]
    rcases hx with rfl | rfl <;> simp [checkboxComplete]

/-- The incomplete-task matcher holds exactly on the structural reading of
its pattern. -/
theorem matchIncompleteTask_iff (line : String) :
    matchIncompleteTask line = true ↔ IncompleteShape line := by
  have hket : isRegexSpace ']' = false := by decide
  constructor
  · intro h
    obtain ⟨w, b, v, hdata, hw, hb, hv⟩ := taskCheckboxRest_decomp line
    unfold matchIncompleteTask at h
    cases hr : taskCheckboxRest line with
    | nil => rw [hr] at h; simp [checkboxIncomplete] at h
    | cons a r1 =>
      rw [hr] at h
      simp only [checkboxIncomplete, Bool.and_eq_true, beq_iff_eq] at h
      obtain ⟨⟨ha, hne⟩, hm⟩ := h
      subst ha
      cases hdw : r1.dropWhile isRegexSpace with
      | nil => rw [hdw] at hm; simp at hm
      | cons bb r2 =>
        rw [hdw] at hm
        simp only [beq_iff_eq] at hm
        subst hm
        have hr1 : r1 = r1.takeWhile isRegexSpace ++ ']' :: r2 := by
          conv_lhs => rw [← List.takeWhile_append_dropWhile isRegexSpace r1]
          rw [hdw]
        have hspne : r1.takeWhile isRegexSpace ≠ [] := by
          intro hnil
          rw [hnil] at hne
          simp at hne
        rw [hr] at hdata
        rw [hr1] at hdata
        exact ⟨w, b, v, r1.takeWhile isRegexSpace, r2, hdata, hw, hb, hv, hspne,
          allSpace_takeWhile _⟩
  · rintro ⟨w, b, v, sp, rest, hdata, hw, hb, hv, hspne, hsp⟩
    unfold matchIncompleteTask
    rw [taskCheckboxRest_of_decomp line w b v (sp ++ ']' :: rest) hdata hw hb hv]
    have h1 : (sp ++ ']' :: rest).takeWhile isRegexSpace = sp := by
      rw [List.takeWhile_append_of_pos hsp, List.takeWhile_cons, hket]
      simp
    have h2 : (sp ++ ']' :: rest).dropWhile isRegexSpace = ']' :: rest := by
      rw [List.dropWhile_append_of_pos hsp, List.dropWhile_cons, hket]
      simp
    simp only [checkboxIncomplete, h1, h2, Bool.and_eq_true, beq_iff_eq]
    refine ⟨⟨trivial, ?_⟩, trivial⟩
    cases sp with
    | nil => exact absurd rfl hspne
    | cons s ss => simp

/-- The header matcher (`^\s*\#+\s+`) holds exactly on the structural
reading of its pattern, leading whitespace included. -/
theorem matchHeaderPattern_iff (line : String) :
    matchHeaderPattern line = true ↔ HeaderShape line := by
  have hhs : isRegexSpace '#' = false := by decide
  constructor
  · intro h
    simp only [matchHeaderPattern, Bool.and_eq_true] at h
    obtain ⟨hne, hm⟩ := h
    cases hrest : (line.data.dropWhile isRegexSpace).dropWhile (· == '#') with
    | nil => rw [hrest] at hm; simp at hm
    | cons c r =>
      rw [hrest] at hm
      have hsplit1 := List.takeWhile_append_dropWhile isRegexSpace line.data
      have hsplit2 :=
        List.takeWhile_append_dropWhile (fun x => x == '#')
          (line.data.dropWhile isRegexSpace)
      rw [hrest] at hsplit2
      refine ⟨line.data.takeWhile isRegexSpace,
        (line.data.dropWhile isRegexSpace).takeWhile (fun x => x == '#'), c, r,
        ?_, allSpace_takeWhile _, ?_, ?_, hm⟩
      · rw [List.append_assoc, hsplit2, hsplit1]
      · intro hnil
        rw [hnil] at hne
        simp at hne
      · intro x hx
        have := List.mem_takeWhile_imp hx
        simpa using this
  · rintro ⟨w, hs, c, r, hdata, hw, hne, hall, hc⟩
    have hchash : (c == '#') = false := by
      by_contra hcc
      simp only [Bool.not_eq_false, beq_iff_eq] at hcc
      rw [hcc] at hc
      exact absurd hc (by decide)
    cases hs with
    | nil => exact absurd rfl hne
    | cons h0 hs' =>
      have h0hash : h0 = '#' := hall h0 (by simp)
      subst h0hash
      have h1 : line.data.dropWhile isRegexSpace = '#' :: hs' ++ c :: r := by
        rw [hdata]
        simp only [List.append_assoc, List.cons_append]
        rw [List.dropWhile_append_of_pos hw, List.dropWhile_cons, hhs]
        simp
      have hallhash : ∀ x ∈ '#' :: hs', (fun y => y == '#') x := by
        intro x hx
        have := hall x hx
        simp [this]
      have h2 : ('#' :: hs' ++ c :: r).takeWhile (fun x => x == '#') =
          '#' :: hs' := by
        rw [List.takeWhile_append_of_pos hallhash, List.takeWhile_cons, hchash]
        simp
      have h3 : ('#' :: hs' ++ c :: r).dropWhile (fun x => x == '#') = c :: r := by
        rw [List.dropWhile_append_of_pos hallhash, List.dropWhile_cons, hchash]
        simp
      simp only [matchHeaderPattern, h1, h2, h3, Bool.and_eq_true]
      exact ⟨by simp, hc⟩

/-- C2 amended: line classification by `parseTask`, with the bullet set as
the code's character class `[-|+|\*]` actually accepts it: leading
whitespace, an optional single bullet from `{-, |, +, *}`, optional
whitespace, then `[x]`/`[X]` yields a complete Task; the same shape with
one or more whitespace characters inside the brackets yields an incomplete
Task; every other line yields no Task. -/
theorem c2_amended_classification (d : GoTime) (hdr p line : String) :
    (CompleteShape line →
      parseTask d hdr p line = some ⟨true, d, p, hdr, textAfterBracket line⟩) ∧
    (¬CompleteShape line → IncompleteShape line →
      parseTask d hdr p line = some ⟨false, d, p, hdr, textAfterBracket line⟩) ∧
    (¬CompleteShape line → ¬IncompleteShape line →
      parseTask d hdr p line = none) := by
  refine ⟨?_, ?_, ?_⟩
  · intro hc
    have h1 : matchCompleteTask line = true := (matchCompleteTask_iff line).2 hc
    simp [parseTask, h1]
  · intro hnc hi
    have h1 : matchCompleteTask line = false := by
      by_contra h
      simp only [Bool.not_eq_false] at h
      exact hnc ((matchCompleteTask_iff line).1 h)
    have h2 : matchIncompleteTask line = true :=
      (matchIncompleteTask_iff line).2 hi
    simp [parseTask, h1, h2]
  · intro hnc hni
    have h1 : matchCompleteTask line = false := by
      by_contra h
      simp only [Bool.not_eq_false] at h
      exact hnc ((matchCompleteTask_iff line).1 h)
    have h2 : matchIncompleteTask line = false := by
      by_contra h
      simp only [Bool.not_eq_false] at h
      exact hni ((matchIncompleteTask_iff line).1 h)
    simp [parseTask, h1, h2]

/-- Witness for C2 amended at the three concrete lines `- [x] a`,
`- [ ] b` and `plain words`. -/
theorem c2_amended_witness :
    parseTask ⟨2023, 1, 2, 0, 0⟩ "" "f.md" "- [x] a" =
      some ⟨true, ⟨2023, 1, 2, 0, 0⟩, "f.md", "", textAfterBracket "- [x] a"⟩ ∧
    parseTask ⟨2023, 1, 2, 0, 0⟩ "" "f.md" "- [ ] b" =
      some ⟨false, ⟨2023, 1, 2, 0, 0⟩, "f.md", "", textAfterBracket "- [ ] b"⟩ ∧
    parseTask ⟨2023, 1, 2, 0, 0⟩ "" "f.md" "plain words" = none := by
  refine ⟨(c2_amended_classification ⟨2023, 1, 2, 0, 0⟩ "" "f.md" "- [x] a").1 ?_,
    (c2_amended_classification ⟨2023, 1, 2, 0, 0⟩ "" "f.md" "- [ ] b").2.1 ?_ ?_,
    (c2_amended_classification ⟨2023, 1, 2, 0, 0⟩ "" "f.md" "plain words").2.2
      ?_ ?_⟩
  · refine ⟨[], ['-'], [' '], 'x', [' ', 'a'], by decide, ?_,
      Or.inr ⟨'-', rfl, by decide⟩, ?_, Or.inl rfl⟩
    · intro c h
      simp at h
    · intro c h
      simp only [List.mem_singleton] at h
      subst h
      decide
  · intro h
    exact absurd ((matchCompleteTask_iff _).2 h) (by decide)
  · refine ⟨[], ['-'], [' '], [' '], [' ', 'b'], by decide, ?_,
      Or.inr ⟨'-', rfl, by decide⟩, ?_, by decide, ?_⟩
    · intro c h
      simp at h
    · intro c h
      simp only [List.mem_singleton] at h
      subst h
      decide
    · intro c h
      simp only [List.mem_singleton] at h
      subst h
      decide
  · intro h
    exact absurd ((matchCompleteTask_iff _).2 h) (by decide)
  · intro h
    exact absurd ((matchIncompleteTask_iff _).2 h) (by decide)

/-- C9 amended: the compiled header pattern allows optional whitespace
before the leading `#` run, and the update strips the maximal leading run
of `#` and space characters only (other whitespace such as tabs is kept):
a line of that shape updates the section header to that stripped remainder,
and every other line leaves the header unchanged. -/
theorem c9_amended_header_update (line lastHeader : String) :
    (HeaderShape line →
      parseLastHeader line lastHeader = goTrimLeftHashSpace line) ∧
    (¬HeaderShape line → parseLastHeader line lastHeader = lastHeader) := by
  constructor
  · intro h
    have hm : matchHeaderPattern line = true := (matchHeaderPattern_iff line).2 h
    simp [parseLastHeader, hm]
  · intro h
    have hm : matchHeaderPattern line = false := by
      by_contra hc
      simp only [Bool.not_eq_false] at hc
      exact h ((matchHeaderPattern_iff line).1 hc)
    simp [parseLastHeader, hm]

/-- Witness for C9 amended at the concrete lines `## Notes` and `plain`. -/
theorem c9_amended_witness :
    parseLastHeader "## Notes" "prev" = goTrimLeftHashSpace "## Notes" ∧
    parseLastHeader "plain" "prev" = "prev" := by
  constructor
  · refine (c9_amended_header_update "## Notes" "prev").1
      ⟨[], ['#', '#'], ' ', ['N', 'o', 't', 'e', 's'], by decide, ?_, by decide,
        ?_, by decide⟩
    · intro c h
      simp at h
    · intro x hx
      simp at hx
      exact hx
  · exact (c9_amended_header_update "plain" "prev").2
      (fun h => absurd ((matchHeaderPattern_iff _).2 h) (by decide))

/-- The markdown-filename matcher holds exactly on the structural reading
of the compiled pattern `(?i).md$`. -/
theorem matchMarkdownFilename_iff (name : String) :
    matchMarkdownFilename name = true ↔ MdSuffixShape name := by
  constructor
  · intro h
    unfold matchMarkdownFilename at h
    cases hr : name.data.reverse with
    | nil => rw [hr] at h; simp at h
    | cons d r1 =>
      cases r1 with
      | nil => rw [hr] at h; simp at h
      | cons m r2 =>
        cases r2 with
        | nil => rw [hr] at h; simp at h
        | cons c s' =>
          rw [hr] at h
          simp only [Bool.and_eq_true, Bool.or_eq_true, beq_iff_eq, bne_iff_ne,
            ne_eq] at h
          obtain ⟨⟨hd, hm⟩, hc⟩ := h
          have hdata : name.data = s'.reverse ++ [c, m, d] := by
            conv_lhs => rw [← List.reverse_reverse name.data]
            rw [hr]
            simp
          exact ⟨s'.reverse, c, m, d, hdata, hc, hm, hd⟩
  · rintro ⟨s, c, a, b, hdata, hc, ha, hb⟩
    unfold matchMarkdownFilename
    have hr : name.data.reverse = b :: a :: c :: s.reverse := by
      rw [hdata]
      simp
    rw [hr]
    simp only [Bool.and_eq_true, Bool.or_eq_true, beq_iff_eq, bne_iff_ne, ne_eq]
    exact ⟨⟨hb, ha⟩, hc⟩

/-- C6 amended: discovery returns exactly the files whose names match the
compiled pattern `(?i).md$`: at least three characters, the last two being
`md` case-insensitively, with any character (newline apart) before them -
a literal dot is not required.  In particular every name ending in `.md`
case-insensitively is returned. -/
theorem c6_amended_discovery_filter :
    (∀ (dirPath : String) (entries : List DirEntry),
      markdownFilePaths dirPath entries =
        (walkAllFiles dirPath entries).filter
          (fun f => matchMarkdownFilename f.Name)) ∧
    (∀ name : String, matchMarkdownFilename name = true ↔ MdSuffixShape name) := by
  refine ⟨?_, matchMarkdownFilename_iff⟩
  intro dirPath entries
  induction dirPath, entries using markdownFilePaths.induct with
  | case1 dirPath => simp [markdownFilePaths, walkAllFiles]
  | case2 dirPath info rest ih =>
    by_cases h : matchMarkdownFilename info.name = true
    · simp [markdownFilePaths, walkAllFiles, List.filter_cons, h, ih]
    · simp only [Bool.not_eq_true] at h
      simp [markdownFilePaths, walkAllFiles, List.filter_cons, h, ih]
  | case3 dirPath name entries rest ih1 ih2 =>
    simp [markdownFilePaths, walkAllFiles, List.filter_append, ih1, ih2]

theorem dateLE_iff {a b : Task} : dateLE a b = true ↔ a.Date.unix ≤ b.Date.unix := by
  simp [dateLE]

theorem insert_sublist_self (t : Task) (r : List Task) :
    List.Sublist r (insertByDate t r) := by
  induction r with
  | nil => exact List.nil_sublist _
  | cons u rest ih =>
    unfold insertByDate
    by_cases h : dateLE t u = true
    · rw [if_pos h]
      exact List.sublist_cons_self t (u :: rest)
    · rw [if_neg h]
      exact List.Sublist.cons₂ u ih

theorem sublist_insert_of_sublist (t : Task) {s r : List Task} (h : List.Sublist s r) :
    List.Sublist s (insertByDate t r) :=
  h.trans (insert_sublist_self t r)

theorem insert_perm (t : Task) (r : List Task) :
    List.Perm (insertByDate t r) (t :: r) := by
  induction r with
  | nil => exact List.Perm.refl _
  | cons u rest ih =>
    unfold insertByDate
    by_cases h : dateLE t u = true
    · rw [if_pos h]
    · rw [if_neg h]
      exact (ih.cons u).trans (List.Perm.swap t u rest)

theorem sortTasks_perm (ts : List Task) : List.Perm (sortTasks ts) ts := by
  induction ts with
  | nil => exact List.Perm.refl _
  | cons t rest ih =>
    exact (insert_perm t (sortTasks rest)).trans (ih.cons t)

theorem pairwise_insert (t : Task) {r : List Task}
    (h : List.Pairwise (fun a b : Task => a.Date.unix ≤ b.Date.unix) r) :
    List.Pairwise (fun a b : Task => a.Date.unix ≤ b.Date.unix)
      (insertByDate t r) := by
  induction r with
  | nil => simp [insertByDate]
  | cons u rest ih =>
    obtain ⟨hu, hrest⟩ := List.pairwise_cons.1 h
    unfold insertByDate
    by_cases hle : dateLE t u = true
    · rw [if_pos hle]
      refine List.pairwise_cons.2 ⟨?_, h⟩
      intro x hx
      rcases List.mem_cons.1 hx with rfl | hx
      · exact dateLE_iff.1 hle
      · exact le_trans (dateLE_iff.1 hle) (hu x hx)
    · rw [if_neg hle]
      refine List.pairwise_cons.2 ⟨?_, ih hrest⟩
      intro x hx
      have hx' : x ∈ t :: rest := (insert_perm t rest).mem_iff.1 hx
      rcases List.mem_cons.1 hx' with heq | hx'
      · rw [heq]
        have hgt : ¬ t.Date.unix ≤ u.Date.unix := fun hc => hle (dateLE_iff.2 hc)
        omega
      · exact hu x hx'

theorem sortTasks_sorted (ts : List Task) :
    List.Pairwise (fun a b : Task => a.Date.unix ≤ b.Date.unix) (sortTasks ts) := by
  induction ts with
  | nil => simp [sortTasks]
  | cons t rest ih => exact pairwise_insert t ih

theorem insert_keeps_pair {a b : Task} (hle : dateLE a b = true) :
    ∀ r : List Task, List.Sublist [b] r → List.Sublist [a, b] (insertByDate a r) := by
  intro r
  induction r with
  | nil => intro h; simp at h
  | cons u rest ih =>
    intro h
    unfold insertByDate
    by_cases hu : dateLE a u = true
    · rw [if_pos hu]
      exact List.Sublist.cons₂ a h
    · rw [if_neg hu]
      cases h with
      | cons _ h' => exact List.Sublist.cons u (ih h')
      | cons₂ h' =>
        exact absurd hle hu

theorem sortTasks_stable :
    ∀ (ts : List Task) (a b : Task), dateLE a b = true → List.Sublist [a, b] ts →
      List.Sublist [a, b] (sortTasks ts) := by
  intro ts
  induction ts with
  | nil => intro a b _ h; simp at h
  | cons x l ih =>
    intro a b hle h
    show List.Sublist [a, b] (insertByDate x (sortTasks l))
    cases h with
    | cons _ h' => exact sublist_insert_of_sublist x (ih a b hle h')
    | cons₂ _ h' =>
      have hb : b ∈ sortTasks l :=
        (sortTasks_perm l).mem_iff.2 (List.singleton_sublist.1 h')
      exact insert_keeps_pair hle _ (List.singleton_sublist.2 hb)

/-- C3 amended: the aggregated task list is sorted by a stable ascending
sort keyed on the date's `Unix()` timestamp (seconds, not day resolution):
the result is a permutation of the input, is non-decreasing in the Unix
timestamp, and two tasks with equal timestamps keep their pre-sort order. -/
theorem c3_amended_stable_sort_by_unix (ts : List Task) :
    List.Pairwise (fun a b : Task => a.Date.unix ≤ b.Date.unix) (sortTasks ts) ∧
    List.Perm (sortTasks ts) ts ∧
    (∀ a b : Task, a.Date.unix = b.Date.unix → List.Sublist [a, b] ts →
      List.Sublist [a, b] (sortTasks ts)) :=
  ⟨sortTasks_sorted ts, sortTasks_perm ts,
   fun a b heq h => sortTasks_stable ts a b (dateLE_iff.2 (le_of_eq heq)) h⟩

/-- Witness for C3 amended: two same-timestamp tasks keep their order. -/
theorem c3_amended_witness :
    List.Sublist
      [⟨false, ⟨2023, 1, 2, 0, 0⟩, "a.md", "", "A"⟩,
       ⟨true, ⟨2023, 1, 2, 0, 0⟩, "b.md", "", "B"⟩]
      (sortTasks [⟨false, ⟨2023, 1, 2, 0, 0⟩, "a.md", "", "A"⟩,
                  ⟨true, ⟨2023, 1, 2, 0, 0⟩, "b.md", "", "B"⟩]) :=
  (c3_amended_stable_sort_by_unix _).2.2 _ _ (by decide) (List.Sublist.refl _)

theorem catJoin_append (xs ys : List String) :
    catJoin (xs ++ ys) = catJoin xs ++ catJoin ys := by
  induction xs with
  | nil => simp [catJoin]
  | cons x xs ih => simp [catJoin, ih, String.append_assoc]

theorem chunksByFmtAux_ne_nil (l : List Task) :
    ∀ (cur : List Task) (curFmt : String), chunksByFmtAux cur curFmt l ≠ [] := by
  induction l with
  | nil => intro cur curFmt; simp [chunksByFmtAux]
  | cons t rest ih =>
    intro cur curFmt
    unfold chunksByFmtAux
    by_cases h : fmtOfTask t = curFmt
    · rw [if_pos h]
      exact ih _ _
    · rw [if_neg h]
      simp

theorem sepJoin_cons (x : String) (L : List String) (h : L ≠ []) :
    sepJoin (x :: L) = x ++ "\n" ++ sepJoin L := by
  cases L with
  | nil => exact absurd rfl h
  | cons y ys => rfl

/-- With a non-zero date context and no zero-formatted dates downstream,
the renderer loop coincides with the context-relative rendering. -/
theorem tasksStringAux_eq_renderFrom :
    ∀ (ts : List Task) (d : GoTime), d.isZero = false →
      (∀ t ∈ ts, t.Date.isZero = false) →
      tasksStringAux d ts = renderFrom d.fmtYMD ts := by
  intro ts
  induction ts with
  | nil => intro d _ _; rfl
  | cons t rest ih =>
    intro d hd hts
    by_cases h : fmtOfTask t = d.fmtYMD
    · rw [tasksStringAux_cons_same h rest]
      simp only [renderFrom, if_pos h]
      rw [ih d hd (fun u hu => hts u (List.mem_cons_of_mem _ hu))]
    · rw [tasksStringAux_cons_diff h rest]
      simp only [renderFrom, if_neg h]
      rw [hd]
      rw [ih t.Date (hts t (by simp)) (fun u hu => hts u (List.mem_cons_of_mem _ hu))]
      rfl

/-- Chunked reading of the context-relative rendering. -/
theorem chunks_render :
    ∀ (rest : List Task) (c0 : Task) (cur' : List Task),
      sepJoin ((chunksByFmtAux (c0 :: cur') (fmtOfTask c0) rest).map renderRun) =
        "# " ++ fmtOfTask c0 ++ "\n\n" ++ catJoin ((c0 :: cur').map taskLine) ++
          renderFrom (fmtOfTask c0) rest := by
  intro rest
  induction rest with
  | nil =>
    intro c0 cur'
    simp [chunksByFmtAux, sepJoin, renderRun, renderFrom]
  | cons t rest' ih =>
    intro c0 cur'
    unfold chunksByFmtAux
    by_cases h : fmtOfTask t = fmtOfTask c0
    · rw [if_pos h, List.cons_append, ih c0 (cur' ++ [t])]
      simp only [renderFrom, if_pos h]
      simp [List.map_append, catJoin_append, catJoin, String.append_assoc]
    · rw [if_neg h]
      have hne : (chunksByFmtAux [t] (fmtOfTask t) rest').map renderRun ≠ [] := by
        intro hnil
        exact chunksByFmtAux_ne_nil rest' [t] (fmtOfTask t)
          (List.map_eq_nil_iff.1 hnil)
      rw [List.map_cons, sepJoin_cons _ _ hne, ih t []]
      simp only [renderFrom, if_neg h]
      simp [renderRun, catJoin, String.append_assoc]

/-- C4 amended: provided no task's date formats as the zero time's
`0001-01-01`, the rendered document is exactly the maximal contiguous
equal-date runs, each preceded by its `# YYYY-MM-DD` header and a blank
line, with one further blank line before every header except the first and
none at the start.  (A leading zero-formatted run is rendered with no
header at all - see C10 - which is why the proviso is needed.) -/
theorem c4_amended_grouped_render (ts : List Task)
    (h : ∀ t ∈ ts, fmtOfTask t ≠ zeroFmt) :
    tasksString ts = sepJoin ((chunksByFmt ts).map renderRun) := by
  cases ts with
  | nil => rfl
  | cons t rest =>
    have ht : fmtOfTask t ≠ zeroFmt := h t (by simp)
    have hdiff : t.Date.fmtYMD ≠ GoTime.zeroTime.fmtYMD := by
      rw [fmtYMD_zeroTime]
      exact ht
    have hz : t.Date.isZero = false := isZero_false_of_fmt ht
    unfold tasksString
    rw [tasksStringAux_cons_diff hdiff rest]
    rw [tasksStringAux_eq_renderFrom rest t.Date hz
      (fun u hu => isZero_false_of_fmt (h u (List.mem_cons_of_mem _ hu)))]
    simp only [chunksByFmt]
    rw [chunks_render rest t []]
    simp [isZero_zeroTime, catJoin, String.append_assoc, fmtOfTask]

/-- Witness for C4 amended at a concrete two-run task list. -/
theorem c4_amended_witness :
    tasksString [⟨true, ⟨2023, 1, 2, 0, 0⟩, "f.md", "", "a"⟩,
                 ⟨false, ⟨2023, 1, 3, 0, 0⟩, "g.md", "", "b"⟩] =
      sepJoin ((chunksByFmt [⟨true, ⟨2023, 1, 2, 0, 0⟩, "f.md", "", "a"⟩,
                 ⟨false, ⟨2023, 1, 3, 0, 0⟩, "g.md", "", "b"⟩]).map renderRun) :=
  c4_amended_grouped_render _ (by decide)

/-- C5 amended: the excluded filename is the constant default `TASKS.md`,
independent of the `-o` override: a file so named contributes no tasks
(without even being opened), every other discovered markdown file is
processed by the scanning pipeline, and dropping the `TASKS.md`-named files
from the discovery list leaves the aggregate unchanged. -/
theorem c5_amended_fixed_default_excluded :
    (∀ f : GoFile, f.Name = defaultOutputFilename → findTasks f = some []) ∧
    (∀ f : GoFile, f.Name ≠ defaultOutputFilename →
      findTasks f = scanFileContent f) ∧
    (∀ files : List GoFile,
      collectTasks files =
        collectTasks (files.filter (fun g => g.Name != defaultOutputFilename))) := by
  refine ⟨fun f hf => by simp [findTasks, hf], fun f hf => by
    simp [findTasks, hf, scanFileContent], ?_⟩
  intro files
  induction files with
  | nil => rfl
  | cons f fs ih =>
    by_cases hf : f.Name = defaultOutputFilename
    · have h1 : findTasks f = some [] := by simp [findTasks, hf]
      simp only [collectTasks, h1, List.filter_cons, hf, bne_self_eq_false,
        if_false, Bool.false_eq_true]
      rw [ih]
      cases collectTasks (fs.filter (fun g => g.Name != defaultOutputFilename)) <;> simp
    · simp only [List.filter_cons]
      have : (f.Name != defaultOutputFilename) = true := by
        simpa using hf
      simp only [this, if_true]
      simp only [collectTasks]
      rw [ih]

/-- Witness for C5 amended at concrete files. -/
theorem c5_amended_witness :
    findTasks ⟨none, "TASKS.md", "TASKS.md", some ["- [ ] a"]⟩ = some [] ∧
    findTasks ⟨none, "b.md", "b.md", some []⟩ =
      scanFileContent ⟨none, "b.md", "b.md", some []⟩ ∧
    collectTasks [⟨none, "TASKS.md", "TASKS.md", some ["- [ ] a"]⟩] =
      collectTasks (List.filter (fun g => g.Name != defaultOutputFilename)
        [⟨none, "TASKS.md", "TASKS.md", some ["- [ ] a"]⟩]) :=
  ⟨c5_amended_fixed_default_excluded.1 _ (by decide),
   c5_amended_fixed_default_excluded.2.1 _ (by decide),
   c5_amended_fixed_default_excluded.2.2 _⟩

end MdAgg
